import Mathlib

/-
Verification of the CodeBot context-packing and command-validation core.

Text is modelled as `List Char`.  The token estimator is the word-count
fallback of `count_tokens` in src/codebot/utils/utils.py (the primary
tiktoken path is an external library; the fallback is the code path that
is fully contained in the repository).  Python's `str.split()` (split on
runs of whitespace, dropping empty pieces) is modelled by `pySplit`.
-/

/-- Whitespace recognised by Python's `str.split()` / `str.strip()`
(ASCII subset: space, tab, newline, carriage return, vertical tab, form feed). -/
def pyIsSpace (c : Char) : Bool :=
  c = ' ' || c = '\t' || c = '\n' || c = '\r' || c = '\x0b' || c = '\x0c'

/-- Helper for `pySplit`: `acc` is the current (reversed) in-progress word. -/
def pySplitAux (acc : List Char) : List Char → List (List Char)
  | [] => if acc = [] then [] else [acc.reverse]
  | c :: cs =>
    if pyIsSpace c then
      if acc = [] then pySplitAux [] cs else acc.reverse :: pySplitAux [] cs
    else
      pySplitAux (c :: acc) cs

/-- Python `text.split()`: maximal runs of non-whitespace characters. -/
def pySplit (s : List Char) : List (List Char) := pySplitAux [] s

/-- `count_tokens` (utils.py lines 37-50), word-count estimation path:
`if not text: return 0` then `len(text.split())`. -/
def count_tokens (text : List Char) : Nat :=
  if text = [] then 0 else (pySplit text).length

theorem count_tokens_eq (s : List Char) : count_tokens s = (pySplit s).length := by
  cases s with
  | nil => simp [count_tokens, pySplit, pySplitAux]
  | cons c cs => simp [count_tokens]

theorem pySplitAux_length_cons (cs : List Char) :
    ∀ (a b : List Char) (x y : Char),
      (pySplitAux (x :: a) cs).length = (pySplitAux (y :: b) cs).length := by
  induction cs with
  | nil => intro a b x y; simp [pySplitAux]
  | cons c cs ih =>
    intro a b x y
    by_cases h : pyIsSpace c
    · simp [pySplitAux, h]
    · simpa [pySplitAux, h] using ih (x :: a) (y :: b) c c

theorem pySplitAux_length_le (cs : List Char) :
    ∀ (a : List Char) (x : Char),
      (pySplitAux (x :: a) cs).length ≤ (pySplit cs).length + 1 := by
  induction cs with
  | nil => intro a x; simp [pySplitAux, pySplit]
  | cons c cs ih =>
    intro a x
    by_cases h : pyIsSpace c
    · simp [pySplitAux, pySplit, h]
    · simp only [pySplitAux, pySplit, h, if_neg, Bool.false_eq_true, if_false]
      calc (pySplitAux (c :: x :: a) cs).length
          = (pySplitAux (c :: ([] : List Char)) cs).length :=
            pySplitAux_length_cons cs (x :: a) [] c c
        _ ≤ (pySplitAux (c :: ([] : List Char)) cs).length + 1 := Nat.le_succ _

theorem pySplitAux_append_length_le (a : List Char) :
    ∀ (acc b : List Char),
      (pySplitAux acc (a ++ b)).length ≤ (pySplitAux acc a).length + (pySplit b).length := by
  induction a with
  | nil =>
    intro acc b
    cases acc with
    | nil => simp [pySplitAux, pySplit]
    | cons x a' =>
      have := pySplitAux_length_le b a' x
      simp [pySplitAux]
      omega
  | cons c a' ih =>
    intro acc b
    by_cases h : pyIsSpace c
    · cases acc with
      | nil => simpa [pySplitAux, h] using ih [] b
      | cons x a'' =>
        have := ih [] b
        simp [pySplitAux, h]
        omega
    · simpa [pySplitAux, h] using ih (c :: acc) b

theorem count_tokens_append_le (a b : List Char) :
    count_tokens (a ++ b) ≤ count_tokens a + count_tokens b := by
  simp only [count_tokens_eq]
  exact pySplitAux_append_length_le a [] b

theorem pySplitAux_append_space {c : Char} (hc : pyIsSpace c = true) (a : List Char) :
    ∀ (acc b : List Char),
      pySplitAux acc (a ++ c :: b) = pySplitAux acc a ++ pySplit b := by
  induction a with
  | nil =>
    intro acc b
    cases acc with
    | nil => simp [pySplitAux, hc, pySplit]
    | cons x a' => simp [pySplitAux, hc, pySplit]
  | cons d a' ih =>
    intro acc b
    by_cases h : pyIsSpace d
    · cases acc with
      | nil => simp [pySplitAux, h, ih]
      | cons x a'' => simp [pySplitAux, h, ih]
    · simp [pySplitAux, h, ih]

theorem count_tokens_space_append (a b : List Char) :
    count_tokens (a ++ ' ' :: b) = count_tokens a + count_tokens b := by
  simp only [count_tokens_eq, pySplit]
  rw [pySplitAux_append_space (by decide) a [] b]
  simp [pySplit]

theorem pySplitAux_nospace (w : List Char) :
    ∀ acc, (∀ c ∈ w, pyIsSpace c = false) →
      pySplitAux acc w = if acc = [] ∧ w = [] then [] else [acc.reverse ++ w] := by
  induction w with
  | nil =>
    intro acc _
    cases acc with
    | nil => simp [pySplitAux]
    | cons x a' => simp [pySplitAux]
  | cons c w' ih =>
    intro acc h
    have hc : pyIsSpace c = false := h c (List.mem_cons_self _ _)
    have hrec := ih (c :: acc) (fun d hd => h d (List.mem_cons_of_mem _ hd))
    simp only [pySplitAux, hc, Bool.false_eq_true, if_false]
    rw [hrec]
    simp

theorem pySplit_words (cs : List Char) :
    ∀ acc, (∀ c ∈ acc, pyIsSpace c = false) →
      ∀ w ∈ pySplitAux acc cs, w ≠ [] ∧ ∀ c ∈ w, pyIsSpace c = false := by
  induction cs with
  | nil =>
    intro acc hacc w hw
    cases acc with
    | nil => simp [pySplitAux] at hw
    | cons x a' =>
      simp [pySplitAux] at hw
      subst hw
      constructor
      · simp
      · intro c hc
        apply hacc
        simp at hc ⊢
        tauto
  | cons c cs' ih =>
    intro acc hacc w hw
    by_cases h : pyIsSpace c
    · cases acc with
      | nil =>
        simp [pySplitAux, h] at hw
        exact ih [] (by simp) w hw
      | cons x a' =>
        simp [pySplitAux, h] at hw
        rcases hw with hw | hw
        · subst hw
          constructor
          · simp
          · intro d hd
            apply hacc
            simp at hd ⊢
            tauto
        · exact ih [] (by simp) w hw
    · simp only [pySplitAux, h, Bool.false_eq_true, if_false] at hw
      refine ih (c :: acc) ?_ w hw
      intro d hd
      rcases List.mem_cons.mp hd with hd | hd
      · subst hd; simpa using h
      · exact hacc d hd

/-- Python `" ".join(words)`. -/
def joinWords : List (List Char) → List Char
  | [] => []
  | [w] => w
  | w :: ws => w ++ ' ' :: joinWords ws

theorem count_tokens_single_word (w : List Char) (hne : w ≠ [])
    (hns : ∀ c ∈ w, pyIsSpace c = false) : count_tokens w = 1 := by
  rw [count_tokens_eq]
  unfold pySplit
  rw [pySplitAux_nospace w [] hns]
  simp [hne]

theorem count_tokens_joinWords (ws : List (List Char))
    (h : ∀ w ∈ ws, w ≠ [] ∧ ∀ c ∈ w, pyIsSpace c = false) :
    count_tokens (joinWords ws) = ws.length := by
  induction ws with
  | nil => simp [joinWords, count_tokens]
  | cons w ws' ih =>
    cases ws' with
    | nil =>
      obtain ⟨hne, hns⟩ := h w (List.mem_cons_self _ _)
      simpa [joinWords] using count_tokens_single_word w hne hns
    | cons v ws'' =>
      obtain ⟨hne, hns⟩ := h w (List.mem_cons_self _ _)
      have hrest := fun u hu => h u (List.mem_cons_of_mem _ hu)
      show count_tokens (w ++ ' ' :: joinWords (v :: ws'')) = _
      rw [count_tokens_space_append, count_tokens_single_word w hne hns, ih hrest]
      simp
      omega

-- Concrete sanity checks for the splitter model.
example : pySplit "a b".toList = [['a'], ['b']] := by decide
example : count_tokens "a\n...  [t]".toList = 3 := by decide
example : count_tokens [] = 0 := by rfl

/-- The visible truncation marker appended by `truncate_text` (utils.py line 95). -/
def truncMarker : List Char := "\n... [truncated]".toList

/-- `truncate_text` (utils.py lines 52-95), word-count fallback path
(lines 54-58 and 91-95): `if not text or max_tokens <= 0: return ""`;
identity when `count_tokens(text) <= max_tokens`; otherwise
`" ".join(text.split()[:max_tokens]) + "\n... [truncated]"`. -/
def truncate_text (text : List Char) (maxTokens : Int) : List Char :=
  if text = [] ∨ maxTokens ≤ 0 then []
  else if (count_tokens text : Int) ≤ maxTokens then text
  else joinWords ((pySplit text).take maxTokens.toNat) ++ truncMarker

theorem truncate_count_le (t : List Char) (m : Int) (hm : 0 < m)
    (hlt : m < (count_tokens t : Int)) :
    (count_tokens (truncate_text t m) : Int) ≤ m + 2 := by
  have ht : ¬(t = [] ∨ m ≤ 0) := by
    rintro (h | h)
    · subst h; simp [count_tokens] at hlt; omega
    · omega
  have hgt : ¬((count_tokens t : Int) ≤ m) := by omega
  rw [truncate_text, if_neg ht, if_neg hgt]
  have hsub := count_tokens_append_le (joinWords ((pySplit t).take m.toNat)) truncMarker
  have hmark : count_tokens truncMarker = 2 := by decide
  have hwords : ∀ w ∈ (pySplit t).take m.toNat, w ≠ [] ∧ ∀ c ∈ w, pyIsSpace c = false := by
    intro w hw
    exact pySplit_words t [] (by simp) w (List.take_subset _ _ hw)
  have hjoin := count_tokens_joinWords _ hwords
  have hlen : ((pySplit t).take m.toNat).length = m.toNat := by
    rw [List.length_take]
    have : m.toNat ≤ (pySplit t).length := by
      rw [count_tokens_eq] at hlt
      omega
    omega
  have htn : (m.toNat : Int) = m := Int.toNat_of_nonneg (le_of_lt hm)
  rw [hjoin, hlen] at hsub
  rw [hmark] at hsub
  have : (count_tokens (joinWords ((pySplit t).take m.toNat) ++ truncMarker) : Int)
      ≤ (m.toNat : Int) + 2 := by exact_mod_cast hsub
  omega

/-
ContextSelector.build_context_string (context_selector.py lines 84-141).
The packed output is modelled as a list of `Segment`s; the string result is
the segments rendered (`header + body`) and joined with the fixed separator,
exactly as `context_parts` is joined in the source.  The `truncated` flag
records which branch of the loop produced the segment.
-/

/-- Separator between files: `"\n\n" + "="*20 + "\n\n"` (line 97). -/
def sepStr : List Char := "\n\n====================\n\n".toList

/-- `separator_tokens = count_tokens(separator)` (line 100). -/
def sepTokens : Nat := count_tokens sepStr

/-- `min_meaningful_tokens = 50` (line 127). -/
def minMeaningfulTokens : Nat := 50

/-- `header = f"--- File: {file_path} ---\n"` (line 108). -/
def fileHeader (p : List Char) : List Char :=
  "--- File: ".toList ++ p ++ " ---\n".toList

/-- One element of `context_parts`, tagged with whether it was truncated. -/
structure Segment where
  path : List Char
  body : List Char
  truncated : Bool
deriving DecidableEq

/-- The string a segment contributes to `context_parts`: `header + content`. -/
def renderSeg (s : Segment) : List Char := fileHeader s.path ++ s.body

/-- Python `separator.join(parts)`. -/
def sepJoin : List (List Char) → List Char
  | [] => []
  | [p] => p
  | p :: ps => p ++ sepStr ++ sepJoin ps

/-- The packing loop of `build_context_string` (lines 102-139).  `segs` is
`context_parts`, `total` is `total_tokens`.  The `else` branch (file does not
fit whole) always terminates the loop (`break`, line 139), after optionally
adding a truncated fragment when `available_tokens > min_meaningful_tokens`. -/
def buildLoop (mt : Nat) (repo : List (List Char × List Char)) :
    List (List Char) → List Segment → Nat → List Segment
  | [], segs, _total => segs
  | f :: rest, segs, total =>
    match List.lookup f repo with
    | none => buildLoop mt repo rest segs total
    | some content =>
      let headerTokens := count_tokens (fileHeader f)
      let contentTokens := count_tokens content
      let sepT := if segs.isEmpty then 0 else sepTokens
      let needed := headerTokens + contentTokens + sepT
      if total + needed ≤ mt then
        buildLoop mt repo rest (segs ++ [⟨f, content, false⟩]) (total + needed)
      else
        let available : Int :=
          (mt : Int) - (total : Int) - (headerTokens : Int) - (sepT : Int)
        if (minMeaningfulTokens : Int) < available then
          segs ++ [⟨f, truncate_text content available, true⟩]
        else
          segs

/-- The final value of `context_parts` for a call of `build_context_string`. -/
def contextSegments (mt : Nat) (sel : List (List Char))
    (repo : List (List Char × List Char)) : List Segment :=
  buildLoop mt repo sel [] 0

/-- `build_context_string`: `separator.join(context_parts)` (line 141). -/
def build_context_string (mt : Nat) (sel : List (List Char))
    (repo : List (List Char × List Char)) : List Char :=
  sepJoin ((contextSegments mt sel repo).map renderSeg)

theorem sepJoin_snoc (ps : List (List Char)) (q : List Char) (h : ps ≠ []) :
    sepJoin (ps ++ [q]) = sepJoin ps ++ (sepStr ++ q) := by
  induction ps with
  | nil => exact absurd rfl h
  | cons p ps' ih =>
    cases ps' with
    | nil => simp [sepJoin]
    | cons p' ps'' =>
      have hne : p' :: ps'' ≠ ([] : List (List Char)) := by simp
      calc sepJoin ((p :: p' :: ps'') ++ [q])
          = p ++ sepStr ++ sepJoin ((p' :: ps'') ++ [q]) := by simp [sepJoin]
        _ = p ++ sepStr ++ (sepJoin (p' :: ps'') ++ (sepStr ++ q)) := by rw [ih hne]
        _ = sepJoin (p :: p' :: ps'') ++ (sepStr ++ q) := by simp [sepJoin]

theorem count_sepJoin_snoc (ps : List (List Char)) (q : List Char) :
    count_tokens (sepJoin (ps ++ [q]))
      ≤ count_tokens (sepJoin ps) + (if ps.isEmpty then 0 else sepTokens)
        + count_tokens q := by
  cases ps with
  | nil => simp [sepJoin]
  | cons p ps' =>
    rw [sepJoin_snoc (p :: ps') q (by simp)]
    have h1 := count_tokens_append_le (sepJoin (p :: ps')) (sepStr ++ q)
    have h2 := count_tokens_append_le sepStr q
    have h3 : count_tokens sepStr = sepTokens := rfl
    simp only [List.isEmpty_cons, if_neg, Bool.false_eq_true, if_false]
    omega

theorem count_fileHeader (p : List Char) :
    count_tokens (fileHeader p) = 3 + count_tokens p := by
  have hA : "--- File: ".toList ++ p = "--- File:".toList ++ ' ' :: p := by
    have h : "--- File: ".toList = "--- File:".toList ++ [' '] := by decide
    rw [h, List.append_assoc]
    rfl
  have hB : " ---\n".toList = ' ' :: "---\n".toList := by decide
  rw [fileHeader, hB, count_tokens_space_append, hA, count_tokens_space_append]
  have h1 : count_tokens "--- File:".toList = 2 := by decide
  have h2 : count_tokens "---\n".toList = 1 := by decide
  omega

theorem isEmpty_map_renderSeg (segs : List Segment) :
    (segs.map renderSeg).isEmpty = segs.isEmpty := by
  cases segs <;> simp

theorem buildLoop_bound (mt : Nat) (repo : List (List Char × List Char)) :
    ∀ (files : List (List Char)) (segs : List Segment) (total : Nat),
      total ≤ mt →
      count_tokens (sepJoin (segs.map renderSeg)) ≤ total →
      count_tokens (sepJoin ((buildLoop mt repo files segs total).map renderSeg))
        ≤ mt + 2 := by
  intro files
  induction files with
  | nil =>
    intro segs total h1 h2
    simp only [buildLoop]
    omega
  | cons f rest ih =>
    intro segs total h1 h2
    cases hl : List.lookup f repo with
    | none =>
      have heq : buildLoop mt repo (f :: rest) segs total
          = buildLoop mt repo rest segs total := by
        simp [buildLoop, hl]
      rw [heq]
      exact ih segs total h1 h2
    | some content =>
      simp only [buildLoop, hl]
      by_cases hfit : total + (count_tokens (fileHeader f) + count_tokens content
          + (if segs.isEmpty then 0 else sepTokens)) ≤ mt
      · rw [if_pos hfit]
        apply ih _ _ hfit
        rw [List.map_append]
        have hsnoc := count_sepJoin_snoc (segs.map renderSeg)
          (renderSeg ⟨f, content, false⟩)
        rw [isEmpty_map_renderSeg] at hsnoc
        have hrend : count_tokens (renderSeg ⟨f, content, false⟩)
            ≤ count_tokens (fileHeader f) + count_tokens content :=
          count_tokens_append_le _ _
        simp only [List.map_cons, List.map_nil] at hsnoc ⊢
        omega
      · rw [if_neg hfit]
        by_cases h50 : (minMeaningfulTokens : Int)
            < (mt : Int) - (total : Int) - (count_tokens (fileHeader f) : Int)
              - ((if segs.isEmpty then 0 else sepTokens : Nat) : Int)
        · rw [if_pos h50]
          set avail : Int := (mt : Int) - (total : Int)
            - (count_tokens (fileHeader f) : Int)
            - ((if segs.isEmpty then 0 else sepTokens : Nat) : Int) with havail
          have hpos : 0 < avail := by
            have hmm : (minMeaningfulTokens : Int) = 50 := by decide
            omega
          have hbig : avail < (count_tokens content : Int) := by
            rw [havail]
            omega
          have htrunc := truncate_count_le content avail hpos hbig
          rw [List.map_append]
          have hsnoc := count_sepJoin_snoc (segs.map renderSeg)
            (renderSeg ⟨f, truncate_text content avail, true⟩)
          rw [isEmpty_map_renderSeg] at hsnoc
          have hrend : count_tokens (renderSeg ⟨f, truncate_text content avail, true⟩)
              ≤ count_tokens (fileHeader f) + count_tokens (truncate_text content avail) :=
            count_tokens_append_le _ _
          simp only [List.map_cons, List.map_nil] at hsnoc ⊢
          omega
        · rw [if_neg h50]
          omega

theorem buildLoop_dropLast (mt : Nat) (repo : List (List Char × List Char)) :
    ∀ (files : List (List Char)) (segs : List Segment) (total : Nat),
      (∀ s ∈ segs, s.truncated = false) →
      ∀ s ∈ (buildLoop mt repo files segs total).dropLast, s.truncated = false := by
  intro files
  induction files with
  | nil =>
    intro segs total hsegs s hs
    simp only [buildLoop] at hs
    exact hsegs s (List.dropLast_subset _ hs)
  | cons f rest ih =>
    intro segs total hsegs s hs
    cases hl : List.lookup f repo with
    | none =>
      simp only [buildLoop, hl] at hs
      exact ih segs total hsegs s hs
    | some content =>
      simp only [buildLoop, hl] at hs
      by_cases hfit : total + (count_tokens (fileHeader f) + count_tokens content
          + (if segs.isEmpty then 0 else sepTokens)) ≤ mt
      · rw [if_pos hfit] at hs
        refine ih _ _ ?_ s hs
        intro u hu
        rcases List.mem_append.mp hu with hu | hu
        · exact hsegs u hu
        · simp at hu
          subst hu
          rfl
      · rw [if_neg hfit] at hs
        by_cases h50 : (minMeaningfulTokens : Int)
            < (mt : Int) - (total : Int) - (count_tokens (fileHeader f) : Int)
              - ((if segs.isEmpty then 0 else sepTokens : Nat) : Int)
        · rw [if_pos h50, List.dropLast_concat] at hs
          exact hsegs s hs
        · rw [if_neg h50] at hs
          exact hsegs s (List.dropLast_subset _ hs)

theorem buildLoop_stop (mt : Nat) (repo : List (List Char × List Char))
    (f content : List Char) (rest rest' : List (List Char))
    (segs : List Segment) (total : Nat)
    (hl : List.lookup f repo = some content)
    (hfit : ¬(total + (count_tokens (fileHeader f) + count_tokens content
      + (if segs.isEmpty then 0 else sepTokens)) ≤ mt)) :
    buildLoop mt repo (f :: rest) segs total
      = buildLoop mt repo (f :: rest') segs total := by
  simp only [buildLoop, hl]
  rw [if_neg hfit, if_neg hfit]

/-- C1 fails on the code: for the word-count estimation path, `truncate_text`
appends the marker `"\n... [truncated]"` after cutting to `max_tokens` words,
so the estimate of the result exceeds the budget.  Concretely, for
`t = "a b"` and `n = 1`, the truncated text `"a\n... [truncated]"` estimates
to 3 tokens, not at most 1. -/
theorem claim_C1_counterexample :
    ¬(count_tokens (truncate_text "a b".toList 1) ≤ 1) := by decide

/-- C1 (amended): for every text `t` and every `n >= 0`, the token estimate of
`truncate_text(t, n)` (word-count fallback path) is at most `n` plus the two
tokens contributed by the appended truncation marker:
`count_tokens(truncate_text(t, n)) <= n + 2`. -/
theorem claim_C1_truncate_bound (t : List Char) (n : Int) (hn : 0 ≤ n) :
    (count_tokens (truncate_text t n) : Int) ≤ n + 2 := by
  by_cases h0 : t = [] ∨ n ≤ 0
  · rw [truncate_text, if_pos h0]
    simp [count_tokens]
    omega
  · by_cases hle : (count_tokens t : Int) ≤ n
    · rw [truncate_text, if_neg h0, if_pos hle]
      omega
    · have hn' : 0 < n := by
        rcases not_or.mp h0 with ⟨-, h⟩
        omega
      exact truncate_count_le t n hn' (by omega)

theorem claim_C1_truncate_bound_witness :
    (0 : Int) ≤ 1 ∧ (count_tokens (truncate_text "a b".toList 1) : Int) ≤ 1 + 2 :=
  ⟨by decide, claim_C1_truncate_bound "a b".toList 1 (by decide)⟩

/-- C6 fails on the code exactly at `n = 0` with a non-empty all-whitespace
text: `count_tokens(" ") = 0 <= 0`, but `truncate_text(" ", 0)` takes the
`max_tokens <= 0` early exit (utils.py line 54) and returns `""`, not the
original text. -/
theorem claim_C6_counterexample :
    (count_tokens [' '] : Int) ≤ 0 ∧ truncate_text [' '] 0 ≠ [' '] := by decide

/-- C6 (amended): for every text `t` and every `n >= 1` with
`count_tokens(t) <= n`, truncation is the identity: `truncate_text(t, n) = t`.
(The claim as stated fails only at `n = 0`, where the `max_tokens <= 0`
guard returns the empty string even for non-empty zero-token text.) -/
theorem claim_C6_truncate_identity (t : List Char) (n : Int) (h1 : 1 ≤ n)
    (h2 : (count_tokens t : Int) ≤ n) : truncate_text t n = t := by
  by_cases ht : t = []
  · rw [truncate_text, if_pos (Or.inl ht), ht]
  · rw [truncate_text, if_neg ?_, if_pos h2]
    rintro (h | h)
    · exact ht h
    · omega

theorem claim_C6_truncate_identity_witness :
    (1 : Int) ≤ 1 ∧ (count_tokens ['a'] : Int) ≤ 1 ∧ truncate_text ['a'] 1 = ['a'] :=
  ⟨by decide, by decide, claim_C6_truncate_identity ['a'] 1 (by decide) (by decide)⟩

/-- C2: for every budget `mt`, every selection and every repository map, the
token estimate of `build_context_string` never exceeds `mt` by more than the
2 tokens of the truncation marker — and 2 is strictly below the header
overhead of any file (a header estimates to at least 3 tokens), so the result
never exceeds the budget by more than one file's header overhead. -/
theorem claim_C2_context_budget (mt : Nat) (sel : List (List Char))
    (repo : List (List Char × List Char)) (p : List Char) :
    count_tokens (build_context_string mt sel repo) ≤ mt + count_tokens truncMarker
      ∧ count_tokens truncMarker < count_tokens (fileHeader p) := by
  have hm : count_tokens truncMarker = 2 := by decide
  constructor
  · have h := buildLoop_bound mt repo sel [] 0 (Nat.zero_le mt)
      (by simp [sepJoin, count_tokens])
    rw [build_context_string, contextSegments]
    omega
  · rw [count_fileHeader]
    omega

/-- C4: in the packed result, a truncated file can only be the last segment
(every segment before the last is an untruncated whole file), and as soon as
one present file fails to fit whole, the loop's result does not depend on any
later files (packing stops, whether or not a truncated fragment was added). -/
theorem claim_C4_truncated_is_last :
    (∀ (mt : Nat) (sel : List (List Char)) (repo : List (List Char × List Char)),
      build_context_string mt sel repo
        = sepJoin ((contextSegments mt sel repo).map renderSeg)
      ∧ ∀ s ∈ (contextSegments mt sel repo).dropLast, s.truncated = false)
    ∧ (∀ (mt : Nat) (repo : List (List Char × List Char)) (f content : List Char)
        (rest rest' : List (List Char)) (segs : List Segment) (total : Nat),
        List.lookup f repo = some content →
        ¬(total + (count_tokens (fileHeader f) + count_tokens content
          + (if segs.isEmpty then 0 else sepTokens)) ≤ mt) →
        buildLoop mt repo (f :: rest) segs total
          = buildLoop mt repo (f :: rest') segs total) := by
  constructor
  · intro mt sel repo
    exact ⟨rfl, buildLoop_dropLast mt repo sel [] 0 (by simp)⟩
  · intro mt repo f content rest rest' segs total hl hfit
    exact buildLoop_stop mt repo f content rest rest' segs total hl hfit

theorem claim_C4_truncated_is_last_witness :
    (Segment.mk "a".toList "x".toList false).truncated = false
    ∧ buildLoop 4 [("a".toList, "x".toList)] ["a".toList, "b".toList] [] 0
        = buildLoop 4 [("a".toList, "x".toList)] ["a".toList, "c".toList] [] 0 :=
  ⟨(claim_C4_truncated_is_last.1 100
      ["a".toList, "b".toList]
      [("a".toList, "x".toList), ("b".toList, "y".toList)]).2
      (Segment.mk "a".toList "x".toList false) (by decide),
    claim_C4_truncated_is_last.2 4 [("a".toList, "x".toList)]
      "a".toList "x".toList ["b".toList] ["c".toList] [] 0 (by decide) (by decide)⟩

/-
GitAssistant._validate_git_command (git_assistant.py lines 44-64) and the
`shlex.split` tokenizer it relies on.  `shlexRun` is a single pass over the
input modelling repeated `shlex.read_token` calls in POSIX mode with
`whitespace_split=True` and comments disabled (the configuration used by
`shlex.split`): `acc` holds the current token reversed, `q` is the per-token
`quoted` flag.  Unbalanced quotes and a trailing escape character raise
`ValueError` in the source, modelled as `Except.error`.
-/

/-- Tokenizer state: outside a token, inside a word, inside single/double
quotes, or after an escape character (from a word, or inside double quotes). -/
inductive ShState where
  | start
  | word
  | squote
  | dquote
  | escA
  | escQ
deriving DecidableEq

/-- `shlex.whitespace = " \t\r\n"`. -/
def shlexWsp (c : Char) : Bool :=
  c = ' ' || c = '\t' || c = '\r' || c = '\n'

def shlexRun : ShState → List Char → Bool → List Char → Except Unit (List (List Char))
  | .start, _acc, _q, [] => .ok []
  | .start, acc, q, c :: rest =>
    if shlexWsp c then shlexRun .start acc q rest
    else if c = '\\' then shlexRun .escA acc q rest
    else if c = '\'' then shlexRun .squote acc true rest
    else if c = '"' then shlexRun .dquote acc true rest
    else shlexRun .word (c :: acc) q rest
  | .word, acc, q, [] => .ok (if acc ≠ [] ∨ q then [acc.reverse] else [])
  | .word, acc, q, c :: rest =>
    if shlexWsp c then
      if acc ≠ [] ∨ q then (shlexRun .start [] false rest).map (acc.reverse :: ·)
      else shlexRun .start [] false rest
    else if c = '\'' then shlexRun .squote acc true rest
    else if c = '"' then shlexRun .dquote acc true rest
    else if c = '\\' then shlexRun .escA acc q rest
    else shlexRun .word (c :: acc) q rest
  | .squote, _acc, _q, [] => .error ()
  | .squote, acc, q, c :: rest =>
    if c = '\'' then shlexRun .word acc q rest
    else shlexRun .squote (c :: acc) q rest
  | .dquote, _acc, _q, [] => .error ()
  | .dquote, acc, q, c :: rest =>
    if c = '"' then shlexRun .word acc q rest
    else if c = '\\' then shlexRun .escQ acc q rest
    else shlexRun .dquote (c :: acc) q rest
  | .escA, _acc, _q, [] => .error ()
  | .escA, acc, q, c :: rest => shlexRun .word (c :: acc) q rest
  | .escQ, _acc, _q, [] => .error ()
  | .escQ, acc, q, c :: rest =>
    if c = '"' || c = '\\' then shlexRun .dquote (c :: acc) q rest
    else shlexRun .dquote (c :: '\\' :: acc) q rest

/-- `shlex.split(command_str)`. -/
def shlexSplit (s : List Char) : Except Unit (List (List Char)) :=
  shlexRun .start [] false s

/-- `_validate_git_command` (git_assistant.py lines 44-64): reject the empty
string, tokenization failures, fewer than two tokens, a first token other
than `git`, or a second token outside `{log, blame}`; otherwise return the
token vector unchanged. -/
def validate_git_command (s : List Char) : Option (List (List Char)) :=
  if s = [] then none
  else
    match shlexSplit s with
    | .error _ => none
    | .ok parts =>
      if parts.length < 2 ∨ parts[0]? ≠ some "git".toList then none
      else if ¬(parts[1]? = some "log".toList ∨ parts[1]? = some "blame".toList) then none
      else some parts

-- Concrete sanity checks for the shlex model.
example : shlexSplit "git log".toList = .ok ["git".toList, "log".toList] := rfl
example : shlexSplit "a 'b".toList = .error () := rfl
example : shlexSplit "a\\".toList = .error () := rfl
example : shlexSplit "''".toList = .ok [[]] := rfl

/-- C3: the validator accepts exactly the lines whose shell tokenization
succeeds with at least two tokens, first token `git`, second token in
`{log, blame}` (no further filtering of flags or paths), and behaves as the
claim states on the four concrete examples. -/
theorem claim_C3_validator :
    (∀ (s : List Char) (parts : List (List Char)),
      validate_git_command s = some parts ↔
        (shlexSplit s = .ok parts ∧ 2 ≤ parts.length
          ∧ parts[0]? = some "git".toList
          ∧ (parts[1]? = some "log".toList ∨ parts[1]? = some "blame".toList)))
    ∧ validate_git_command "git log --oneline".toList
        = some ["git".toList, "log".toList, "--oneline".toList]
    ∧ validate_git_command "rm -rf /".toList = none
    ∧ validate_git_command "git push origin main".toList = none
    ∧ validate_git_command "git blame 'file with spaces.py'".toList
        = some ["git".toList, "blame".toList, "file with spaces.py".toList] := by
  refine ⟨?_, by decide, by decide, by decide, by decide⟩
  intro s parts
  constructor
  · intro h
    unfold validate_git_command at h
    split at h
    · exact absurd h (by simp)
    · split at h
      · exact absurd h (by simp)
      next ps heq =>
        split at h
        · exact absurd h (by simp)
        next hcond =>
          split at h
          · exact absurd h (by simp)
          next hcond2 =>
            obtain rfl : ps = parts := by injection h
            push_neg at hcond
            rw [not_not] at hcond2
            exact ⟨heq, by omega, hcond.2, hcond2⟩
  · rintro ⟨hsp, hlen, h0, h1⟩
    have hs : s ≠ [] := by
      intro hnil
      subst hnil
      have : shlexSplit [] = Except.ok [] := rfl
      rw [this] at hsp
      injection hsp with h'
      subst h'
      simp at hlen
    have hc1 : ¬(parts.length < 2 ∨ parts[0]? ≠ some "git".toList) := by
      push_neg
      exact ⟨by omega, h0⟩
    have hc2 : ¬¬(parts[1]? = some "log".toList ∨ parts[1]? = some "blame".toList) :=
      not_not_intro h1
    simp only [validate_git_command, if_neg hs, hsp]
    rw [if_neg hc1, if_neg hc2]

/-
String helpers shared by ContextSelector.select_relevant_files and
GitAssistant.handle_query: Python `str.splitlines()`, `str.strip()` and
`str.strip('/')`.
-/

/-- Line terminators recognised by Python `str.splitlines()`
(`\r\n` is handled as a single terminator in `splitLinesAux`). -/
def isLineBreak (c : Char) : Bool :=
  c = '\n' || c = '\r' || c = '\x0b' || c = '\x0c' || c = '\x1c'
    || c = '\x1d' || c = '\x1e' || c = '\x85' || c = '\u2028' || c = '\u2029'

def splitLinesAux (acc : List Char) : List Char → List (List Char)
  | [] => if acc = [] then [] else [acc.reverse]
  | '\r' :: '\n' :: rest => acc.reverse :: splitLinesAux [] rest
  | c :: rest =>
    if isLineBreak c then acc.reverse :: splitLinesAux [] rest
    else splitLinesAux (c :: acc) rest

/-- Python `text.splitlines()` (no trailing empty line, `keepends=False`). -/
def splitLines (s : List Char) : List (List Char) := splitLinesAux [] s

/-- Python `text.strip()`: drop leading and trailing whitespace. -/
def pyStrip (s : List Char) : List Char :=
  ((s.dropWhile pyIsSpace).reverse.dropWhile pyIsSpace).reverse

/-- Python `text.strip('/')`: drop leading and trailing `/` characters. -/
def stripSlashes (s : List Char) : List Char :=
  ((s.dropWhile (fun c => c == '/')).reverse.dropWhile (fun c => c == '/')).reverse

example : splitLines "a\r\nb\n\nc".toList
    = ["a".toList, "b".toList, [], "c".toList] := by decide
example : pyStrip "  a b \n".toList = "a b".toList := by decide
example : stripSlashes "/a/b/".toList = "a/b".toList := by decide

/-- `ContextSelector.select_relevant_files` (context_selector.py lines 30-81).
The LLM call `self.llm.query(selection_prompt)` is modelled by `llmResult`
(`Except.error` when the call raises `LLMInteractionError`, which the source
re-raises as `ContextSelectionError`).  The returned error value `()` stands
for `ContextSelectionError`. -/
def select_relevant_files (maxContextFiles : Nat) (fileStructure : List (List Char))
    (llmResult : Except Unit (List Char)) : Except Unit (List (List Char)) :=
  if fileStructure = [] then .ok []
  else
    match llmResult with
    | .error _ => .error ()
    | .ok raw =>
      let selectedRaw := ((splitLines raw).map pyStrip).filter (fun l => l ≠ [])
      let valid := (selectedRaw.map stripSlashes).filter (fun p => p ∈ fileStructure)
      if valid = [] then .error ()
      else .ok (if maxContextFiles < valid.length then valid.take maxContextFiles else valid)

/-- C10: every successful selection is a subset of the input file structure
(membership tested after stripping leading/trailing `/`) of length at most
`max_context_files`; when no suggested line matches a known path the call
fails with `ContextSelectionError`; and an empty file structure yields `[]`
regardless of the LLM response (the LLM is never consulted). -/
theorem claim_C10_selection :
    (∀ (mf : Nat) (fs : List (List Char)) (res : Except Unit (List Char))
        (out : List (List Char)),
      select_relevant_files mf fs res = .ok out →
        (∀ p ∈ out, p ∈ fs) ∧ out.length ≤ mf)
    ∧ (∀ (mf : Nat) (fs : List (List Char)) (raw : List Char),
        fs ≠ [] →
        (∀ line ∈ splitLines raw, stripSlashes (pyStrip line) ∉ fs) →
        select_relevant_files mf fs (.ok raw) = .error ())
    ∧ (∀ (mf : Nat) (res : Except Unit (List Char)),
        select_relevant_files mf [] res = .ok []) := by
  refine ⟨?_, ?_, ?_⟩
  · intro mf fs res out h
    unfold select_relevant_files at h
    split at h
    · obtain rfl : ([] : List (List Char)) = out := by injection h
      simp
    next hfs =>
      cases res with
      | error e => exact absurd h (by simp)
      | ok raw =>
        simp only at h
        split at h
        · exact absurd h (by simp)
        next hvalid =>
          obtain rfl : _ = out := by injection h
          constructor
          · intro p hp
            split at hp
            · have := List.mem_filter.mp (List.take_subset _ _ hp)
              exact of_decide_eq_true this.2
            · have := List.mem_filter.mp hp
              exact of_decide_eq_true this.2
          · split
            next hlt =>
              rw [List.length_take]
              omega
            next hlt => omega
  · intro mf fs raw hfs hnone
    unfold select_relevant_files
    rw [if_neg hfs]
    simp only
    have hvalid : ((((splitLines raw).map pyStrip).filter (fun l => l ≠ [])).map
        stripSlashes).filter (fun p => decide (p ∈ fs)) = [] := by
      rw [List.filter_eq_nil_iff]
      intro p hp
      obtain ⟨l, hl, rfl⟩ := List.mem_map.mp hp
      have hl' : l ∈ (splitLines raw).map pyStrip := (List.mem_filter.mp hl).1
      obtain ⟨line, hline, rfl⟩ := List.mem_map.mp hl'
      simpa using hnone line hline
    rw [hvalid]
    simp
  · intro mf res
    simp [select_relevant_files]

theorem claim_C10_selection_witness :
    ((∀ p ∈ ["a.py".toList], p ∈ ["a.py".toList]) ∧ ["a.py".toList].length ≤ 5)
    ∧ select_relevant_files 5 ["a.py".toList] (.ok "nope\n".toList) = .error ()
    ∧ select_relevant_files 5 [] (.ok "x".toList) = .ok [] :=
  ⟨claim_C10_selection.1 5 ["a.py".toList] (.ok "/a.py/\n".toList)
      ["a.py".toList] (by rfl),
    claim_C10_selection.2.1 5 ["a.py".toList] "nope\n".toList
      (by decide) (by decide),
    claim_C10_selection.2.2 5 (.ok "x".toList)⟩

/-
GitAssistant.handle_query (git_assistant.py lines 90-148).  External
collaborators are parameters: `exec` models `subprocess.run` (`some stdout`
on success, `none` for a non-zero exit or spawn failure), `cmdGen` the LLM
command-generation call, `synth` the LLM synthesis call.  The repository
check `repo_root.is_dir() and (repo_root / ".git").is_dir()` is the Boolean
`repoOk`.
-/

/-- The error outcomes of `handle_query`: the invalid-repository
`GitExecutionError`, a re-raised LLM exception, and the zero-successes
`GitExecutionError`. -/
inductive HQError where
  | invalidRepo
  | llmFailure
  | noValidCommand
deriving DecidableEq

/-- Python `sep.join(parts)`. -/
def joinWith (sep : List Char) : List (List Char) → List Char
  | [] => []
  | [x] => x
  | x :: xs => x ++ sep ++ joinWith sep xs

/-- The command loop of `handle_query` (lines 110-133): returns
(`executed_commands`, `final_output_log`, `valid_command_found`). -/
def runCmds (exec : List (List Char) → Option (List Char)) :
    List (List Char) → List (List Char) × List (List Char) × Bool
  | [] => ([], [], false)
  | line :: rest =>
    match validate_git_command (pyStrip line) with
    | none => runCmds exec rest
    | some argv =>
      let r := runCmds exec rest
      match exec argv with
      | some out => (line :: r.1, pyStrip out :: r.2.1, true)
      | none => (line :: r.1, r.2.1, r.2.2)

/-- `handle_query`: repository check, command generation, the loop above,
the zero-successes error, and synthesis of the final answer. -/
def handle_query (repoOk : Bool) (cmdGen : Except Unit (List Char))
    (exec : List (List Char) → Option (List Char))
    (synth : List Char → List Char → Except Unit (List Char)) :
    Except HQError (List Char) :=
  if ¬repoOk then .error .invalidRepo
  else
    match cmdGen with
    | .error _ => .error .llmFailure
    | .ok sugg =>
      let r := runCmds exec (splitLines (pyStrip sugg))
      if r.2.2 then
        match synth (joinWith "\n".toList r.1)
            (pyStrip (joinWith "\n---\n".toList r.2.1)) with
        | .error _ => .error .llmFailure
        | .ok ans => .ok ans
      else .error .noValidCommand

theorem runCmds_found (exec : List (List Char) → Option (List Char)) :
    ∀ lines : List (List Char),
      (runCmds exec lines).2.2 = true ↔
        ∃ l ∈ lines, ∃ argv, validate_git_command (pyStrip l) = some argv
          ∧ exec argv ≠ none := by
  intro lines
  induction lines with
  | nil => simp [runCmds]
  | cons l rest ih =>
    cases hv : validate_git_command (pyStrip l) with
    | none =>
      simp only [runCmds, hv]
      rw [ih]
      constructor
      · rintro ⟨u, hu, argv, hvu, hne⟩
        exact ⟨u, List.mem_cons_of_mem _ hu, argv, hvu, hne⟩
      · rintro ⟨u, hu, argv, hvu, hne⟩
        rcases List.mem_cons.mp hu with rfl | hu
        · rw [hv] at hvu; exact absurd hvu (by simp)
        · exact ⟨u, hu, argv, hvu, hne⟩
    | some argv =>
      cases he : exec argv with
      | some out =>
        simp only [runCmds, hv, he]
        constructor
        · intro _
          exact ⟨l, List.mem_cons_self _ _, argv, hv, by simp [he]⟩
        · intro _
          trivial
      | none =>
        simp only [runCmds, hv, he]
        rw [ih]
        constructor
        · rintro ⟨u, hu, argv', hvu, hne⟩
          exact ⟨u, List.mem_cons_of_mem _ hu, argv', hvu, hne⟩
        · rintro ⟨u, hu, argv', hvu, hne⟩
          rcases List.mem_cons.mp hu with rfl | hu
          · rw [hv] at hvu
            obtain rfl : argv = argv' := by injection hvu
            exact absurd he hne
          · exact ⟨u, hu, argv', hvu, hne⟩

/-- C5: with a valid git repository and a generated suggestion string, the
loop attempts every validated command in input order (`executed_commands` is
exactly the validated lines, in order), collects the stripped outputs of the
successful ones in input order (a failure never aborts the batch), and
`handle_query` yields the zero-successes `GitExecutionError` exactly when no
validated suggested command executes successfully. -/
theorem claim_C5_git_batch :
    (∀ (exec : List (List Char) → Option (List Char)) (lines : List (List Char)),
      (runCmds exec lines).1
          = lines.filter (fun l => (validate_git_command (pyStrip l)).isSome)
        ∧ (runCmds exec lines).2.1
          = lines.filterMap (fun l =>
              (validate_git_command (pyStrip l)).bind
                (fun argv => (exec argv).map pyStrip)))
    ∧ (∀ (sugg : List Char) (exec : List (List Char) → Option (List Char))
        (synth : List Char → List Char → Except Unit (List Char)),
        handle_query true (.ok sugg) exec synth = .error .noValidCommand ↔
          ∀ l ∈ splitLines (pyStrip sugg), ∀ argv,
            validate_git_command (pyStrip l) = some argv → exec argv = none) := by
  constructor
  · intro exec lines
    induction lines with
    | nil => exact ⟨rfl, rfl⟩
    | cons l rest ih =>
      cases hv : validate_git_command (pyStrip l) with
      | none => simp [runCmds, hv, ih.1, ih.2]
      | some argv =>
        cases he : exec argv with
        | some out => simp [runCmds, hv, he, ih.1, ih.2]
        | none => simp [runCmds, hv, he, ih.1, ih.2]
  · intro sugg exec synth
    have hfound := runCmds_found exec (splitLines (pyStrip sugg))
    simp only [handle_query, not_true, if_false]
    by_cases hf : (runCmds exec (splitLines (pyStrip sugg))).2.2 = true
    · rw [if_pos hf]
      have hex := hfound.mp hf
      cases hsy : synth
          (joinWith "\n".toList (runCmds exec (splitLines (pyStrip sugg))).1)
          (pyStrip (joinWith "\n---\n".toList
            (runCmds exec (splitLines (pyStrip sugg))).2.1)) with
      | error e =>
        constructor
        · intro h
          exact absurd h (by simp)
        · intro hr
          exfalso
          obtain ⟨l, hl, argv, hvl, hne⟩ := hex
          exact hne (hr l hl argv hvl)
      | ok ans =>
        constructor
        · intro h
          exact absurd h (by simp)
        · intro hr
          exfalso
          obtain ⟨l, hl, argv, hvl, hne⟩ := hex
          exact hne (hr l hl argv hvl)
    · rw [if_neg hf]
      constructor
      · intro _ l hl argv hvl
        by_contra hne
        exact hf (hfound.mpr ⟨l, hl, argv, hvl, hne⟩)
      · intro _
        rfl

/-
RepositoryLoader (repository_loader.py).  The filesystem is modelled as the
flat list of entries `Path.rglob('*')` yields: each entry carries its path
segments relative to the scan root (never empty: `rglob` never yields the
root itself), its kind (`is_file()` / `is_dir()` / neither), and the outcome
of reading it (`some content` after decoding with `errors='ignore'`, or
`none` when `open`/`read` raises).
-/

inductive EKind where
  | file
  | dir
  | other
deriving DecidableEq

structure FSEntry where
  relParts : List (List Char)
  kind : EKind
  readResult : Option (List Char)
deriving DecidableEq

/-- `path.name`: the last path segment. -/
def entryName (e : FSEntry) : List Char := e.relParts.getLastD []

/-- `_is_ignored` (repository_loader.py lines 97-119): base name in
`ignore_files`, any segment of the path relative to the root in
`ignore_dirs`, or (directory entries) base name in `ignore_dirs`.  The
`ValueError` fallback for paths not relative to the root cannot arise in
this model, where every entry carries its relative segments. -/
def is_ignored (igD igF : List (List Char)) (e : FSEntry) : Prop :=
  entryName e ∈ igF
    ∨ (∃ p ∈ e.relParts, p ∈ igD)
    ∨ (e.kind = EKind.dir ∧ entryName e ∈ igD)

instance (igD igF : List (List Char)) (e : FSEntry) :
    Decidable (is_ignored igD igF e) := by
  unfold is_ignored
  exact inferInstance

/-- `str(item_path.relative_to(repo_path))`. -/
def pathStr (e : FSEntry) : List Char := joinWith "/".toList e.relParts

/-- Per-file capping (lines 60-63): truncate when the estimate exceeds
`max_file_tokens`. -/
def processContent (maxFT : Nat) (content : List Char) : List Char :=
  if maxFT < count_tokens content then truncate_text content (maxFT : Int)
  else content

/-- The scan loop of `load_repository` (lines 49-73): accumulates
(`code_files`, `file_load_errors`) over the enumerated entries. -/
def loadLoop (igD igF : List (List Char)) (maxFT : Nat) :
    List FSEntry → List (List Char × List Char) × List (List Char)
  | [] => ([], [])
  | e :: rest =>
    let r := loadLoop igD igF maxFT rest
    if is_ignored igD igF e then r
    else if e.kind = EKind.file then
      match e.readResult with
      | some content => ((pathStr e, processContent maxFT content) :: r.1, r.2)
      | none => (r.1, pathStr e :: r.2)
    else r

/-- `load_repository` (lines 41-81): not-a-directory error, scan, read-error
propagation (aborts the whole scan), zero-files error, else the mapping. -/
def load_repository (igD igF : List (List Char)) (maxFT : Nat)
    (rootIsDir : Bool) (entries : List FSEntry) :
    Except Unit (List (List Char × List Char)) :=
  if ¬rootIsDir then .error ()
  else
    let r := loadLoop igD igF maxFT entries
    if r.2 ≠ [] then .error ()
    else if r.1 = [] then .error ()
    else .ok r.1

/-- What the scan records for one entry in `code_files`. -/
def scanFile (igD igF : List (List Char)) (maxFT : Nat) (e : FSEntry) :
    Option (List Char × List Char) :=
  if ¬is_ignored igD igF e ∧ e.kind = EKind.file then
    e.readResult.map (fun c => (pathStr e, processContent maxFT c))
  else none

/-- What the scan records for one entry in `file_load_errors`. -/
def scanErr (igD igF : List (List Char)) (e : FSEntry) : Option (List Char) :=
  if ¬is_ignored igD igF e ∧ e.kind = EKind.file ∧ e.readResult = none then
    some (pathStr e)
  else none

theorem loadLoop_spec (igD igF : List (List Char)) (maxFT : Nat) :
    ∀ entries : List FSEntry,
      loadLoop igD igF maxFT entries
        = (entries.filterMap (scanFile igD igF maxFT),
           entries.filterMap (scanErr igD igF)) := by
  intro entries
  induction entries with
  | nil => rfl
  | cons e rest ih =>
    by_cases hig : is_ignored igD igF e
    · have h1 : scanFile igD igF maxFT e = none := by
        rw [scanFile, if_neg]
        tauto
      have h2 : scanErr igD igF e = none := by
        rw [scanErr, if_neg]
        tauto
      simp [loadLoop, hig, ih, h1, h2]
    · by_cases hk : e.kind = EKind.file
      · cases hr : e.readResult with
        | some content =>
          have h1 : scanFile igD igF maxFT e
              = some (pathStr e, processContent maxFT content) := by
            rw [scanFile, if_pos ⟨hig, hk⟩, hr]
            rfl
          have h2 : scanErr igD igF e = none := by
            rw [scanErr, if_neg]
            simp [hr]
          simp [loadLoop, hig, hk, hr, ih, h1, h2]
        | none =>
          have h1 : scanFile igD igF maxFT e = none := by
            rw [scanFile, if_pos ⟨hig, hk⟩, hr]
            rfl
          have h2 : scanErr igD igF e = some (pathStr e) := by
            rw [scanErr, if_pos ⟨hig, hk, hr⟩]
          simp [loadLoop, hig, hk, hr, ih, h1, h2]
      · have h1 : scanFile igD igF maxFT e = none := by
          rw [scanFile, if_neg]
          tauto
        have h2 : scanErr igD igF e = none := by
          rw [scanErr, if_neg]
          tauto
        simp [loadLoop, hig, hk, ih, h1, h2]

theorem scanFile_eq_none (igD igF : List (List Char)) (maxFT : Nat) (e : FSEntry) :
    scanFile igD igF maxFT e = none ↔
      is_ignored igD igF e ∨ e.kind ≠ EKind.file ∨ e.readResult = none := by
  rw [scanFile]
  by_cases h : ¬is_ignored igD igF e ∧ e.kind = EKind.file
  · rw [if_pos h]
    cases hr : e.readResult with
    | some c => simp [hr]; tauto
    | none => simp [hr]
  · rw [if_neg h]
    simp
    tauto

theorem scanErr_eq_none (igD igF : List (List Char)) (e : FSEntry) :
    scanErr igD igF e = none ↔
      ¬(¬is_ignored igD igF e ∧ e.kind = EKind.file ∧ e.readResult = none) := by
  rw [scanErr]
  by_cases h : ¬is_ignored igD igF e ∧ e.kind = EKind.file ∧ e.readResult = none
  · rw [if_pos h]
    simp
    tauto
  · rw [if_neg h]
    simp
    tauto

/-- C7: `load_repository` fails exactly when the root is not a directory, or
some non-ignored file's read fails (aborting the whole scan), or no
non-ignored file exists at all; otherwise it returns the complete mapping of
every non-ignored file to its (per-file-capped) content. -/
theorem claim_C7_loader (igD igF : List (List Char)) (maxFT : Nat)
    (rootIsDir : Bool) (entries : List FSEntry) :
    (load_repository igD igF maxFT rootIsDir entries = .error () ↔
      (rootIsDir = false
        ∨ (∃ e ∈ entries, ¬is_ignored igD igF e ∧ e.kind = EKind.file
            ∧ e.readResult = none)
        ∨ (∀ e ∈ entries, is_ignored igD igF e ∨ e.kind ≠ EKind.file)))
    ∧ (∀ out, load_repository igD igF maxFT rootIsDir entries = .ok out →
        out = entries.filterMap (scanFile igD igF maxFT)) := by
  cases rootIsDir with
  | false =>
    constructor
    · simp [load_repository]
    · intro out h
      exact absurd h (by simp [load_repository])
  | true =>
    have hspec := loadLoop_spec igD igF maxFT entries
    have herr : entries.filterMap (scanErr igD igF) = [] ↔
        ∀ e ∈ entries, scanErr igD igF e = none := List.filterMap_eq_nil_iff
    have hfil : entries.filterMap (scanFile igD igF maxFT) = [] ↔
        ∀ e ∈ entries, scanFile igD igF maxFT e = none := List.filterMap_eq_nil_iff
    constructor
    · rw [load_repository, if_neg (by simp), hspec]
      by_cases he : entries.filterMap (scanErr igD igF) = []
      · rw [if_neg (by simpa using he)]
        by_cases hf : entries.filterMap (scanFile igD igF maxFT) = []
        · rw [if_pos hf]
          constructor
          · intro _
            refine Or.inr (Or.inr ?_)
            intro e hmem
            have := (hfil.mp hf) e hmem
            rw [scanFile_eq_none] at this
            rcases this with h | h | h
            · exact Or.inl h
            · exact Or.inr h
            · -- read failure: contradicts the absence of scan errors
              by_cases hig : is_ignored igD igF e
              · exact Or.inl hig
              · by_cases hk : e.kind = EKind.file
                · exfalso
                  have := (herr.mp he) e hmem
                  rw [scanErr_eq_none] at this
                  exact this ⟨hig, hk, h⟩
                · exact Or.inr hk
          · intro _
            simp
        · rw [if_neg hf]
          constructor
          · intro h
            exact absurd h (by simp)
          · rintro (h | ⟨e, hmem, hig, hk, hr⟩ | h)
            · exact absurd h (by simp)
            · exfalso
              have := (herr.mp he) e hmem
              rw [scanErr_eq_none] at this
              exact this ⟨hig, hk, hr⟩
            · exfalso
              apply hf
              rw [hfil]
              intro e hmem
              rw [scanFile_eq_none]
              rcases h e hmem with h' | h'
              · exact Or.inl h'
              · exact Or.inr (Or.inl h')
      · rw [if_pos (by simpa using he)]
        constructor
        · intro _
          refine Or.inr (Or.inl ?_)
          have hne : ¬∀ e ∈ entries, scanErr igD igF e = none := by
            intro hall
            exact he (herr.mpr hall)
          push_neg at hne
          obtain ⟨e, hmem, hsne⟩ := hne
          refine ⟨e, hmem, ?_⟩
          by_contra hc
          exact hsne ((scanErr_eq_none igD igF e).mpr hc)
        · intro _
          rfl
    · intro out h
      rw [load_repository, if_neg (by simp), hspec] at h
      by_cases he : entries.filterMap (scanErr igD igF) = []
      · rw [if_neg (by simpa using he)] at h
        by_cases hf : entries.filterMap (scanFile igD igF maxFT) = []
        · rw [if_pos hf] at h
          exact absurd h (by simp)
        · rw [if_neg hf] at h
          injection h with h'
          exact h'.symm
      · rw [if_pos (by simpa using he)] at h
        exact absurd h (by simp)

theorem claim_C7_loader_witness :
    [("a.py".toList, "x".toList)]
      = [FSEntry.mk ["a.py".toList] EKind.file (some "x".toList)].filterMap
          (scanFile [] [] 100) :=
  (claim_C7_loader [] [] 100 true
    [FSEntry.mk ["a.py".toList] EKind.file (some "x".toList)]).2
    [("a.py".toList, "x".toList)] (by rfl)

theorem getLastD_mem (l : List (List Char)) :
    ∀ d : List Char, l ≠ [] → l.getLastD d ∈ l := by
  induction l with
  | nil => intro d h; exact absurd rfl h
  | cons x xs ih =>
    intro d _
    rw [List.getLastD_cons]
    by_cases hxs : xs = []
    · subst hxs
      simp [List.getLastD]
    · exact List.mem_cons_of_mem _ (ih x hxs)

/-- C8: an entry is excluded from the scan exactly when its base name is in
the ignored-file set or some segment of its root-relative path is in the
ignored-directory set (so a file nested inside an ignored directory at any
depth is excluded).  The extra directory-name check of the source is
absorbed by the any-segment check, since the base name is itself the last
segment. -/
theorem claim_C8_ignore_rules (igD igF : List (List Char)) (e : FSEntry)
    (h : e.relParts ≠ []) :
    is_ignored igD igF e ↔
      entryName e ∈ igF ∨ ∃ p ∈ e.relParts, p ∈ igD := by
  unfold is_ignored
  constructor
  · rintro (h1 | h2 | ⟨hdir, hmem⟩)
    · exact Or.inl h1
    · exact Or.inr h2
    · exact Or.inr ⟨entryName e, getLastD_mem e.relParts [] h, hmem⟩
  · rintro (h1 | h2)
    · exact Or.inl h1
    · exact Or.inr (Or.inl h2)

theorem claim_C8_ignore_rules_witness :
    is_ignored ["node_modules".toList] []
      (FSEntry.mk ["node_modules".toList, "a".toList, "b.js".toList]
        EKind.file (some [])) :=
  (claim_C8_ignore_rules ["node_modules".toList] []
    (FSEntry.mk ["node_modules".toList, "a".toList, "b.js".toList]
      EKind.file (some []))
    (by decide)).mpr (Or.inr ⟨"node_modules".toList, by decide, by decide⟩)

/-
GeminiInterface.query (gemini_interface.py lines 42-81).  The external
`generate_content` call is modelled as an attempt-indexed oracle
`gen : Nat -> Except _ GenResponse`; the source performs exactly one call,
so only `gen 0` is consulted.  `retryAttempts` and `delay` are the
documented-but-never-consulted parameters (defaults 3 and 5).
-/

/-- The observable fields of a `generate_content` response that `query`
inspects: `prompt_feedback.block_reason`, the `text` accessor, and the
`parts` list (each part optionally carrying text). -/
structure GenResponse where
  blockReason : Option (List Char)
  text : Option (List Char)
  parts : List (Option (List Char))
deriving DecidableEq

/-- Error outcomes of `query`: the invalid-prompt guard, and every
API-side failure wrapped into `LLMInteractionError` by the `except` block. -/
inductive LLMErrorKind where
  | invalidPrompt
  | apiFailure
deriving DecidableEq

/-- `GeminiInterface.query`.  Mirrors the source: empty-prompt guard,
single `generate_content` call, block-reason check, `text` accessor,
`parts` fallback join, unexpected-format error; every exception inside the
`try` is wrapped into the same error kind. -/
def gemini_query (prompt : List Char) (gen : Nat → Except Unit GenResponse)
    (retryAttempts : Int) (delay : Int) : Except LLMErrorKind (List Char) :=
  if prompt = [] then .error .invalidPrompt
  else
    match gen 0 with
    | .error _ => .error .apiFailure
    | .ok resp =>
      match resp.blockReason with
      | some _ => .error .apiFailure
      | none =>
        match resp.text with
        | some t => .ok t
        | none =>
          let joined := (resp.parts.filterMap id).foldl (· ++ ·) []
          if resp.parts ≠ [] ∧ joined ≠ [] then .ok joined
          else .error .apiFailure

/-- C9: the observable behaviour of `query` is identical for all values of
the `retry_attempts` and `delay` parameters, and only the first (single)
`generate_content` response is ever consulted — no retry takes place. -/
theorem claim_C9_retry_params_unused (prompt : List Char)
    (gen gen' : Nat → Except Unit GenResponse) (r₁ d₁ r₂ d₂ : Int)
    (h : gen 0 = gen' 0) :
    gemini_query prompt gen r₁ d₁ = gemini_query prompt gen' r₂ d₂ := by
  unfold gemini_query
  rw [h]

/-- A response oracle that always answers. -/
def genAlways : Nat → Except Unit GenResponse :=
  fun _ => .ok ⟨none, some "hi".toList, []⟩

/-- A response oracle that answers only on the first attempt and fails on
every retry. -/
def genFirstOnly : Nat → Except Unit GenResponse :=
  fun n => if n = 0 then .ok ⟨none, some "hi".toList, []⟩ else .error ()

theorem claim_C9_retry_params_unused_witness :
    gemini_query "p".toList genAlways 3 5 = gemini_query "p".toList genFirstOnly 0 0 :=
  claim_C9_retry_params_unused "p".toList genAlways genFirstOnly 3 5 0 0 rfl
